import Mathlib

/-!
Verification of the sparse byte-range tracking structure of
`libcore/src/transfer/TransferData.hpp` (classes `DenseData` and `SparseData`).

Machine integers (`Range::base_type`, `Range::length_type`, `cache_usize_type`)
are unsigned 64-bit values; they are embedded as `Nat` with an explicit
`% 2 ^ 64` wherever the C++ arithmetic can wrap (unsigned subtraction and
accumulating addition).  Byte buffers (`std::vector<unsigned char>`) are
embedded as `List Nat`; a returned `unsigned char *` pointing into a buffer at
a position is embedded as the `Option` of the list of bytes from that position
to the end of the buffer (`none` embeds the `NULL` pointer).
-/

namespace Sirikata
namespace Transfer

/-- The modulus of the 64-bit unsigned integer types used for byte offsets and
lengths (`cache_usize_type` and friends). -/
def W : Nat := 2 ^ 64

/-- Unsigned 64-bit subtraction: the value of `a - b` computed in a 64-bit
unsigned integer type, i.e. subtraction modulo `W`. -/
def usub (a b : Nat) : Nat := (a % W + (W - b % W)) % W

/-- Modelled from the spec: the `Range` value type of `Range.hpp`, which is not
part of the available source fragment (only its accessors are used by
`TransferData.hpp`).  A `Range` holds a start offset, the length of the
currently materialized data, and a flag meaning the range extends to the (yet
unknown) end of the file.  `startbyte()`, `endbyte()`, `length()` and
`goesToEndOfFile()` read these fields. -/
structure Range where
  mStart : Nat
  mLength : Nat
  mWholeFile : Bool
deriving DecidableEq

/-- `Range::startbyte()`. -/
def Range.startbyte (r : Range) : Nat := r.mStart

/-- `Range::endbyte()`: one past the last materialized byte. -/
def Range.endbyte (r : Range) : Nat := r.mStart + r.mLength

/-- `Range::length()`: the materialized length. -/
def Range.length (r : Range) : Nat := r.mLength

/-- `Range::goesToEndOfFile()`. -/
def Range.goesToEndOfFile (r : Range) : Bool := r.mWholeFile

/-- `r.covers p`: offset `p` lies within the materialized data of `r`; exactly
the bounds check `DenseData::dataAt` performs before forming a pointer. -/
def Range.covers (r : Range) (p : Nat) : Prop :=
  r.startbyte ≤ p ∧ p < r.endbyte

instance (r : Range) (p : Nat) : Decidable (r.covers p) :=
  inferInstanceAs (Decidable (_ ∧ _))

/-- `DenseData`: an owned byte buffer (`std::vector<unsigned char> mData`)
together with the `Range` of the file it came from. -/
structure DenseData where
  range : Range
  mData : List Nat
deriving DecidableEq

/-- `DenseData::DenseData(const Range &range)`: the buffer is resized (and
thereby zero-filled) to `range.length()` only when that length is nonzero;
otherwise it is left empty. -/
def mkDenseData (range : Range) : DenseData :=
  { range := range
    mData := if range.length ≠ 0 then List.replicate range.length 0 else [] }

/-- `DenseData::data()`: takes the address of element 0 of the buffer
(`&mData[0]`).  The embedding returns the element at index 0 when it exists;
`none` embeds the out-of-bounds error branch of indexing an empty vector. -/
def DenseData.data (d : DenseData) : Option Nat := d.mData[0]?

/-- `DenseData::writableData()`: also takes `&mData[0]`. -/
def DenseData.writableData (d : DenseData) : Option Nat := d.mData[0]?

/-- `DenseData::dataAt(base_type offset)`: `NULL` when
`offset >= endbyte() || offset < startbyte()`, otherwise a pointer into the
buffer at position `offset - startbyte()`. -/
def DenseData.dataAt (d : DenseData) (offset : Nat) : Option (List Nat) :=
  if offset ≥ d.range.endbyte ∨ offset < d.range.startbyte then none
  else some (d.mData.drop (offset - d.range.startbyte))

/-- The byte stored at absolute offset `p` of a `DenseData` (the value the
pointer returned by `DenseData::dataAt` points to when it is non-`NULL`);
out of bounds it defaults to 0. -/
def DenseData.byteAt (d : DenseData) (p : Nat) : Nat :=
  d.mData.getD (p - d.range.startbyte) 0

/-- `SparseData`: an ordered list of `DenseData` entries
(`std::list<DenseDataPtr> mSparseData`). -/
abbrev SparseData := List DenseData

/-- `SparseData::getSpaceUsed()`: sums `length()` over all entries into a
`cache_usize_type` accumulator (64-bit unsigned, so addition wraps). -/
def SparseData.getSpaceUsed (s : SparseData) : Nat :=
  s.foldl (fun acc d => (acc + d.range.length) % W) 0

/-- `SparseData::dataAt(offset, length&)`: walks the entry list in order.  On
the first entry with `offset >= startbyte()` and (`goesToEndOfFile()` or
`offset < endbyte()`) it returns the entry's `dataAt(offset)` with
`length = range.length() + (length_type)(range.startbyte() - offset)` computed
in 64-bit unsigned arithmetic; on the first entry with `offset < startbyte()`
it returns `NULL` with `length = startbyte() - offset`; past the last entry it
returns `NULL` with `length = 0`. -/
def SparseData.dataAt : SparseData → Nat → Option (List Nat) × Nat
  | [], _ => (none, 0)
  | d :: rest, offset =>
    if d.range.startbyte ≤ offset ∧
        (d.range.goesToEndOfFile = true ∨ offset < d.range.endbyte) then
      (DenseData.dataAt d offset,
        (d.range.length + usub d.range.startbyte offset) % W)
    else if offset < d.range.startbyte then
      (none, usub d.range.startbyte offset)
    else
      SparseData.dataAt rest offset

/-- The byte content the SparseSet exposes at offset `p`: the byte of the first
entry whose materialized range contains `p` (the first entry for which
`DenseData::dataAt p` would be non-`NULL`), if any. -/
def SparseData.valueAt : SparseData → Nat → Option Nat
  | [], _ => none
  | d :: rest, p =>
    if d.range.covers p then some (d.byteAt p) else SparseData.valueAt rest p

/-- `r` lies strictly before chunk range `c` with a real gap: its interval
(`[start, end)`, or `[start, ∞)` when it goes to end of file) ends strictly
below `c.startbyte`. -/
def Range.isBefore (r c : Range) : Bool :=
  decide (r.endbyte < c.startbyte) && !r.mWholeFile

/-- `r` lies strictly after chunk range `c` with a real gap: `c`'s interval
ends strictly below `r.startbyte`. -/
def Range.isAfter (r c : Range) : Bool :=
  decide (c.endbyte < r.startbyte) && !c.mWholeFile

/-- `r`'s interval overlaps or touches chunk range `c`'s interval (an unbounded
interval `[start, ∞)` overlaps or touches everything at or after `start`). -/
def Range.meets (r c : Range) : Bool :=
  (decide (r.startbyte ≤ c.endbyte) || c.mWholeFile) &&
    (decide (c.startbyte ≤ r.endbyte) || r.mWholeFile)

/-- Modelled from the spec: the byte-assembly rule of the merge routine
`Range::addToList` (declared but not defined in the available source
fragment).  Within the coalesced entry, the newly inserted chunk's bytes take
precedence in the region it covers; elsewhere the byte of the (unique)
subsumed old entry covering the position is retained; positions covered by
neither are zero-filled like a freshly resized buffer. -/
def mergedByte (c : DenseData) (merged : List DenseData) (p : Nat) : Nat :=
  if c.range.covers p then c.byteAt p
  else
    match merged.find? (fun e => decide (e.range.covers p)) with
    | some e => e.byteAt p
    | none => 0

/-- The entries of `s` whose intervals overlap or touch the new chunk `c`:
the entries subsumed by the insertion. -/
def mergeCandidates (s : SparseData) (c : DenseData) : SparseData :=
  s.filter (fun e => e.range.meets c.range)

/-- Start of the coalesced entry: the least start among the chunk and the
subsumed entries. -/
def mergeStart (s : SparseData) (c : DenseData) : Nat :=
  ((mergeCandidates s c).map (fun e => e.range.startbyte)).foldr min c.range.startbyte

/-- Materialized end of the coalesced entry: the greatest end among the chunk
and the subsumed entries. -/
def mergeEnd (s : SparseData) (c : DenseData) : Nat :=
  ((mergeCandidates s c).map (fun e => e.range.endbyte)).foldr max c.range.endbyte

/-- The coalesced entry is unbounded when the chunk or a subsumed entry is. -/
def mergeWhole (s : SparseData) (c : DenseData) : Bool :=
  c.range.mWholeFile || (mergeCandidates s c).any (fun e => e.range.mWholeFile)

/-- The coalesced entry produced by inserting chunk `c` into `s`: it spans the
union interval and its buffer is assembled byte by byte by `mergedByte`. -/
def mergeEntry (s : SparseData) (c : DenseData) : DenseData :=
  ⟨⟨mergeStart s c, mergeEnd s c - mergeStart s c, mergeWhole s c⟩,
    (List.range (mergeEnd s c - mergeStart s c)).map
      (fun i => mergedByte c (mergeCandidates s c) (mergeStart s c + i))⟩

/-- Modelled from the spec: `SparseData::addValidData` delegates to
`Range::addToList`, which is not part of the available source fragment.
Following the spec's insertion algorithm: entries strictly before the new
chunk (not touching it) are kept, entries strictly after are kept, and all
entries whose intervals overlap or touch the chunk are subsumed, together with
the chunk, into one coalesced entry spanning the union interval, whose buffer
is assembled by `mergedByte` (new data wins on byte-level overlap, retained
old bytes elsewhere). -/
def SparseData.addValidData (s : SparseData) (c : DenseData) : SparseData :=
  s.filter (fun e => e.range.isBefore c.range) ++
    mergeEntry s c :: s.filter (fun e => e.range.isAfter c.range)

/-- The ordering relation between entries of a well-formed SparseSet: the
earlier entry's interval ends strictly before the later one starts, so the
earlier entry is bounded and the two neither overlap nor touch. -/
def entryRel (a b : DenseData) : Prop :=
  a.range.endbyte < b.range.startbyte ∧ a.range.mWholeFile = false

instance (a b : DenseData) : Decidable (entryRel a b) :=
  inferInstanceAs (Decidable (_ ∧ _))

/-- The SparseSet invariant: entries are strictly ordered ascending by start,
with a nonempty gap between consecutive entries (no overlap, no touching), and
only the last entry may be unbounded. -/
def Inv (s : SparseData) : Prop := s.Pairwise entryRel

instance (s : SparseData) : Decidable (Inv s) :=
  inferInstanceAs (Decidable (List.Pairwise _ _))

/-! ### Arithmetic helper lemmas -/

theorem W_pos : 0 < W := by norm_num [W]

theorem usub_eq_sub {a b : Nat} (hb : b ≤ a) (ha : a < W) : usub a b = a - b := by
  have hW := W_pos
  unfold usub
  rw [Nat.mod_eq_of_lt (lt_of_le_of_lt hb ha), Nat.mod_eq_of_lt ha]
  have h1 : a + (W - b) = W + (a - b) := by omega
  rw [h1, Nat.add_mod_left]
  exact Nat.mod_eq_of_lt (by omega)

theorem runlen_eq {start len off : Nat} (h1 : start ≤ off) (h2 : off < start + len)
    (h3 : start + len < W) : (len + usub start off) % W = start + len - off := by
  have hW := W_pos
  unfold usub
  rw [Nat.mod_eq_of_lt (show start < W by omega), Nat.mod_eq_of_lt (show off < W by omega)]
  rcases Nat.eq_or_lt_of_le h1 with heq | hlt
  · subst heq
    rw [show start + (W - start) = W by omega, Nat.mod_self]
    rw [Nat.mod_eq_of_lt (show len + 0 < W by omega)]
    omega
  · rw [Nat.mod_eq_of_lt (show start + (W - off) < W by omega)]
    rw [show len + (start + (W - off)) = W + (len - (off - start)) by omega, Nat.add_mod_left]
    rw [Nat.mod_eq_of_lt (by omega)]
    omega

theorem Range.startbyte_le_endbyte (r : Range) : r.startbyte ≤ r.endbyte :=
  Nat.le_add_right _ _

/-! ### Fold min/max helper lemmas -/

theorem foldr_min_le_init (init : Nat) (l : List Nat) : l.foldr min init ≤ init := by
  induction l with
  | nil => exact le_refl _
  | cons x xs ih => exact le_trans (min_le_right _ _) ih

theorem foldr_min_le_mem {x : Nat} (init : Nat) {l : List Nat} (hx : x ∈ l) :
    l.foldr min init ≤ x := by
  induction l with
  | nil => cases hx
  | cons y ys ih =>
    rcases List.mem_cons.mp hx with rfl | hmem
    · exact min_le_left _ _
    · exact le_trans (min_le_right _ _) (ih hmem)

theorem lt_foldr_min {p init : Nat} {l : List Nat} (h1 : p < init)
    (h2 : ∀ x ∈ l, p < x) : p < l.foldr min init := by
  induction l with
  | nil => exact h1
  | cons y ys ih =>
    exact lt_min (h2 y (List.mem_cons_self _ _))
      (ih (fun x hx => h2 x (List.mem_cons_of_mem _ hx)))

theorem init_le_foldr_max (init : Nat) (l : List Nat) : init ≤ l.foldr max init := by
  induction l with
  | nil => exact le_refl _
  | cons x xs ih => exact le_trans ih (le_max_right _ _)

theorem mem_le_foldr_max {x : Nat} (init : Nat) {l : List Nat} (hx : x ∈ l) :
    x ≤ l.foldr max init := by
  induction l with
  | nil => cases hx
  | cons y ys ih =>
    rcases List.mem_cons.mp hx with rfl | hmem
    · exact le_max_left _ _
    · exact le_trans (ih hmem) (le_max_right _ _)

theorem foldr_max_lt {q init : Nat} {l : List Nat} (h1 : init < q)
    (h2 : ∀ x ∈ l, x < q) : l.foldr max init < q := by
  induction l with
  | nil => exact h1
  | cons y ys ih =>
    exact max_lt (h2 y (List.mem_cons_self _ _))
      (ih (fun x hx => h2 x (List.mem_cons_of_mem _ hx)))

/-! ### Placement predicate lemmas -/

theorem isBefore_iff {r c : Range} :
    r.isBefore c = true ↔ r.endbyte < c.startbyte ∧ r.mWholeFile = false := by
  cases h : r.mWholeFile <;> simp [Range.isBefore, h]

theorem isAfter_iff {r c : Range} :
    r.isAfter c = true ↔ c.endbyte < r.startbyte ∧ c.mWholeFile = false := by
  cases h : c.mWholeFile <;> simp [Range.isAfter, h]

theorem meets_iff {r c : Range} :
    r.meets c = true ↔
      (r.startbyte ≤ c.endbyte ∨ c.mWholeFile = true) ∧
        (c.startbyte ≤ r.endbyte ∨ r.mWholeFile = true) := by
  cases h1 : r.mWholeFile <;> cases h2 : c.mWholeFile <;>
    simp [Range.meets, h1, h2]

/-! ### Membership facts for the three insertion zones -/

theorem mem_bef_prop {s : SparseData} {c e : DenseData}
    (h : e ∈ s.filter (fun e => e.range.isBefore c.range)) :
    e.range.endbyte < c.range.startbyte ∧ e.range.mWholeFile = false :=
  isBefore_iff.mp (List.mem_filter.mp h).2

theorem mem_aft_prop {s : SparseData} {c a : DenseData}
    (h : a ∈ s.filter (fun e => e.range.isAfter c.range)) :
    c.range.endbyte < a.range.startbyte ∧ c.range.mWholeFile = false :=
  isAfter_iff.mp (List.mem_filter.mp h).2

theorem mem_merged_prop {s : SparseData} {c m : DenseData} (h : m ∈ mergeCandidates s c) :
    (m.range.startbyte ≤ c.range.endbyte ∨ c.range.mWholeFile = true) ∧
      (c.range.startbyte ≤ m.range.endbyte ∨ m.range.mWholeFile = true) :=
  meets_iff.mp (List.mem_filter.mp h).2

/-- Any two distinct members of a well-formed SparseSet are related by the
entry ordering in one direction or the other. -/
theorem entryRel_total {s : SparseData} {e m : DenseData} (h : Inv s)
    (he : e ∈ s) (hm : m ∈ s) (hne : e ≠ m) : entryRel e m ∨ entryRel m e := by
  have hsymm : Symmetric (fun a b : DenseData => entryRel a b ∨ entryRel b a) :=
    fun a b hab => hab.symm
  exact (h.imp (fun hab => Or.inl hab)).forall hsymm he hm hne

/-! ### Geometry of the coalesced entry -/

theorem mergeStart_le_chunk (s : SparseData) (c : DenseData) :
    mergeStart s c ≤ c.range.startbyte :=
  foldr_min_le_init _ _

theorem mergeStart_le_mem {s : SparseData} {c m : DenseData} (hm : m ∈ mergeCandidates s c) :
    mergeStart s c ≤ m.range.startbyte :=
  foldr_min_le_mem _ (List.mem_map_of_mem _ hm)

theorem chunk_le_mergeEnd (s : SparseData) (c : DenseData) :
    c.range.endbyte ≤ mergeEnd s c :=
  init_le_foldr_max _ _

theorem mem_le_mergeEnd {s : SparseData} {c m : DenseData} (hm : m ∈ mergeCandidates s c) :
    m.range.endbyte ≤ mergeEnd s c :=
  mem_le_foldr_max _ (List.mem_map_of_mem _ hm)

theorem mergeStart_le_mergeEnd (s : SparseData) (c : DenseData) :
    mergeStart s c ≤ mergeEnd s c :=
  le_trans (mergeStart_le_chunk s c)
    (le_trans (c.range.startbyte_le_endbyte) (chunk_le_mergeEnd s c))

theorem mergeEntry_startbyte (s : SparseData) (c : DenseData) :
    (mergeEntry s c).range.startbyte = mergeStart s c := rfl

theorem mergeEntry_endbyte (s : SparseData) (c : DenseData) :
    (mergeEntry s c).range.endbyte = mergeEnd s c := by
  have := mergeStart_le_mergeEnd s c
  simp only [mergeEntry, Range.endbyte]
  omega

/-- Every entry kept before the insertion point ends strictly below the
coalesced entry's start. -/
theorem bef_lt_mergeStart {s : SparseData} {c e : DenseData} (h : Inv s)
    (he : e ∈ s.filter (fun e => e.range.isBefore c.range)) :
    e.range.endbyte < mergeStart s c := by
  obtain ⟨hlt, hwf⟩ := mem_bef_prop he
  refine lt_foldr_min hlt ?_
  intro x hx
  obtain ⟨m, hm, rfl⟩ := List.mem_map.mp hx
  obtain ⟨_, hm2⟩ := mem_merged_prop hm
  have hne : e ≠ m := by
    intro heq
    subst heq
    rcases hm2 with h1 | h1
    · omega
    · rw [hwf] at h1; cases h1
  rcases entryRel_total h (List.mem_of_mem_filter he) (List.mem_of_mem_filter hm) hne with
    hr | hr
  · exact hr.1
  · obtain ⟨hr1, hr2⟩ := hr
    rcases hm2 with h1 | h1
    · have := m.range.startbyte_le_endbyte
      have := e.range.startbyte_le_endbyte
      omega
    · rw [hr2] at h1; cases h1

/-- Every entry kept after the insertion point starts strictly above the
coalesced entry's end. -/
theorem aft_gt_mergeEnd {s : SparseData} {c a : DenseData} (h : Inv s)
    (ha : a ∈ s.filter (fun e => e.range.isAfter c.range)) :
    mergeEnd s c < a.range.startbyte := by
  obtain ⟨hlt, hwf⟩ := mem_aft_prop ha
  refine foldr_max_lt hlt ?_
  intro x hx
  obtain ⟨m, hm, rfl⟩ := List.mem_map.mp hx
  obtain ⟨hm1, _⟩ := mem_merged_prop hm
  rcases hm1 with hm1 | hm1
  swap
  · rw [hwf] at hm1; cases hm1
  have hne : m ≠ a := by
    intro heq
    subst heq
    omega
  rcases entryRel_total h (List.mem_of_mem_filter hm) (List.mem_of_mem_filter ha) hne with
    hr | hr
  · exact hr.1
  · obtain ⟨hr1, _⟩ := hr
    have := a.range.startbyte_le_endbyte
    omega

/-- When an entry survives after the coalesced entry, the coalesced entry is
bounded. -/
theorem mergeWhole_false_of_aft {s : SparseData} {c a : DenseData} (h : Inv s)
    (ha : a ∈ s.filter (fun e => e.range.isAfter c.range)) :
    mergeWhole s c = false := by
  obtain ⟨hlt, hwf⟩ := mem_aft_prop ha
  unfold mergeWhole
  rw [hwf, Bool.false_or, List.any_eq_false]
  intro m hm
  obtain ⟨hm1, _⟩ := mem_merged_prop hm
  rcases hm1 with hm1 | hm1
  swap
  · rw [hwf] at hm1; cases hm1
  intro hmw
  have hne : m ≠ a := by
    intro heq
    subst heq
    omega
  rcases entryRel_total h (List.mem_of_mem_filter hm) (List.mem_of_mem_filter ha) hne with
    hr | hr
  · rw [hr.2] at hmw; cases hmw
  · obtain ⟨hr1, _⟩ := hr
    have := a.range.startbyte_le_endbyte
    omega

/-- The insertion operation preserves the SparseSet invariant. -/
theorem Inv.addValidData {s : SparseData} (h : Inv s) (c : DenseData) :
    Inv (s.addValidData c) := by
  unfold Inv SparseData.addValidData
  rw [List.pairwise_append]
  refine ⟨h.sublist (List.filter_sublist _), ?_, ?_⟩
  · rw [List.pairwise_cons]
    refine ⟨?_, h.sublist (List.filter_sublist _)⟩
    intro a ha
    refine ⟨?_, ?_⟩
    · rw [mergeEntry_endbyte]
      exact aft_gt_mergeEnd h ha
    · exact mergeWhole_false_of_aft h ha
  · intro e he y hy
    obtain ⟨hbe, hbw⟩ := mem_bef_prop he
    rcases List.mem_cons.mp hy with rfl | hy
    · exact ⟨by rw [mergeEntry_startbyte]; exact bef_lt_mergeStart h he, hbw⟩
    · obtain ⟨hae, _⟩ := mem_aft_prop hy
      have := c.range.startbyte_le_endbyte
      exact ⟨by omega, hbw⟩

/-! ### Byte content of a well-formed SparseSet -/

/-- In a well-formed SparseSet at most one entry covers any offset, so
`valueAt` returns the byte of any covering member. -/
theorem valueAt_eq_of_covers {s : SparseData} {e : DenseData} {p : Nat} (h : Inv s)
    (he : e ∈ s) (hc : e.range.covers p) : s.valueAt p = some (e.byteAt p) := by
  unfold Inv at h
  induction s with
  | nil => cases he
  | cons d rest ih =>
    rw [List.pairwise_cons] at h
    rcases List.mem_cons.mp he with rfl | he
    · rw [SparseData.valueAt, if_pos hc]
    · rw [SparseData.valueAt]
      rw [if_neg, ih h.2 he]
      intro hd
      obtain ⟨hrel, _⟩ := h.1 e he
      obtain ⟨h1, h2⟩ := hd
      obtain ⟨h3, h4⟩ := hc
      omega

theorem valueAt_exists {s : SparseData} {p : Nat} {b : Nat}
    (h : s.valueAt p = some b) :
    ∃ e, e ∈ s ∧ e.range.covers p ∧ e.byteAt p = b := by
  induction s with
  | nil => cases h
  | cons d rest ih =>
    rw [SparseData.valueAt] at h
    by_cases hd : d.range.covers p
    · rw [if_pos hd] at h
      exact ⟨d, List.mem_cons_self _ _, hd, (Option.some.injEq _ _).mp h⟩
    · rw [if_neg hd] at h
      obtain ⟨e, he, hec, heb⟩ := ih h
      exact ⟨e, List.mem_cons_of_mem _ he, hec, heb⟩

/-- In a pairwise-ordered entry list, `find?` for coverage of `p` returns any
covering member. -/
theorem find?_covers_eq {l : List DenseData} {e : DenseData} {p : Nat}
    (h : l.Pairwise entryRel) (he : e ∈ l) (hc : e.range.covers p) :
    l.find? (fun x => decide (x.range.covers p)) = some e := by
  induction l with
  | nil => cases he
  | cons d rest ih =>
    rw [List.pairwise_cons] at h
    rcases List.mem_cons.mp he with rfl | he
    · rw [List.find?_cons_of_pos _ (by simpa using hc)]
    · rw [List.find?_cons_of_neg, ih h.2 he]
      simp only [decide_eq_true_eq]
      intro hd
      obtain ⟨hrel, _⟩ := h.1 e he
      obtain ⟨h1, h2⟩ := hd
      obtain ⟨h3, h4⟩ := hc
      omega

theorem getD_range_map (n : Nat) (f : Nat → Nat) {i : Nat} (hi : i < n) :
    ((List.range n).map f).getD i 0 = f i := by
  rw [List.getD_eq_getElem?_getD, List.getElem?_map, List.getElem?_range hi]
  rfl

theorem mergeEntry_covers {s : SparseData} {c : DenseData} {p : Nat}
    (h1 : mergeStart s c ≤ p) (h2 : p < mergeEnd s c) :
    (mergeEntry s c).range.covers p := by
  refine ⟨?_, ?_⟩
  · rw [mergeEntry_startbyte]; exact h1
  · rw [mergeEntry_endbyte]; exact h2

theorem mergeEntry_byteAt {s : SparseData} {c : DenseData} {p : Nat}
    (h1 : mergeStart s c ≤ p) (h2 : p < mergeEnd s c) :
    (mergeEntry s c).byteAt p = mergedByte c (mergeCandidates s c) p := by
  unfold DenseData.byteAt mergeEntry
  simp only [Range.startbyte]
  rw [getD_range_map _ _ (by omega)]
  congr 1
  omega

theorem mergeEntry_mem_addValidData (s : SparseData) (c : DenseData) :
    mergeEntry s c ∈ s.addValidData c :=
  List.mem_append_right _ (List.mem_cons_self _ _)

/-- Trichotomy: an entry neither strictly before nor strictly after the chunk
overlaps or touches it. -/
theorem meets_of_not_before_after {r c : Range} (h1 : r.isBefore c = false)
    (h2 : r.isAfter c = false) : r.meets c = true := by
  cases hr : r.mWholeFile <;> cases hc : c.mWholeFile <;>
    simp [Range.isBefore, Range.isAfter, Range.meets, hr, hc] at * <;> omega

/-- New data wins: at every offset the inserted chunk covers, the SparseSet's
byte content after insertion is the chunk's byte. -/
theorem valueAt_addValidData_covers {s : SparseData} {c : DenseData} {p : Nat}
    (h : Inv s) (hc : c.range.covers p) :
    (s.addValidData c).valueAt p = some (c.byteAt p) := by
  obtain ⟨hc1, hc2⟩ := hc
  have hs : mergeStart s c ≤ p := le_trans (mergeStart_le_chunk s c) hc1
  have hePnd : p < mergeEnd s c := lt_of_lt_of_le hc2 (chunk_le_mergeEnd s c)
  have hby : (mergeEntry s c).byteAt p = c.byteAt p := by
    rw [mergeEntry_byteAt hs hePnd]
    unfold mergedByte
    rw [if_pos ⟨hc1, hc2⟩]
  rw [← hby]
  exact valueAt_eq_of_covers (h.addValidData c) (mergeEntry_mem_addValidData s c)
    (mergeEntry_covers hs hePnd)

/-- Old data is retained: at every offset the inserted chunk does not cover,
any byte the SparseSet held before insertion is still held after. -/
theorem valueAt_addValidData_notCovers {s : SparseData} {c : DenseData} {p b : Nat}
    (h : Inv s) (hnc : ¬ c.range.covers p) (hb : s.valueAt p = some b) :
    (s.addValidData c).valueAt p = some b := by
  obtain ⟨e, he, hec, heb⟩ := valueAt_exists hb
  have hinv := h.addValidData c
  cases hbef : e.range.isBefore c.range with
  | true =>
    have hmem : e ∈ s.addValidData c :=
      List.mem_append_left _ (List.mem_filter.mpr ⟨he, hbef⟩)
    rw [valueAt_eq_of_covers hinv hmem hec, heb]
  | false =>
    cases haft : e.range.isAfter c.range with
    | true =>
      have hmem : e ∈ s.addValidData c :=
        List.mem_append_right _ (List.mem_cons_of_mem _ (List.mem_filter.mpr ⟨he, haft⟩))
      rw [valueAt_eq_of_covers hinv hmem hec, heb]
    | false =>
      have hmc : e ∈ mergeCandidates s c :=
        List.mem_filter.mpr ⟨he, meets_of_not_before_after hbef haft⟩
      obtain ⟨hec1, hec2⟩ := hec
      have hs : mergeStart s c ≤ p := le_trans (mergeStart_le_mem hmc) hec1
      have hePnd : p < mergeEnd s c := lt_of_lt_of_le hec2 (mem_le_mergeEnd hmc)
      have hsub : List.Sublist (mergeCandidates s c) s := List.filter_sublist _
      have hpm : (mergeCandidates s c).Pairwise entryRel := h.sublist hsub
      have hby : (mergeEntry s c).byteAt p = b := by
        rw [mergeEntry_byteAt hs hePnd]
        unfold mergedByte
        rw [if_neg hnc, find?_covers_eq hpm hmc ⟨hec1, hec2⟩]
        exact heb
      rw [← hby]
      exact valueAt_eq_of_covers hinv (mergeEntry_mem_addValidData s c)
        (mergeEntry_covers hs hePnd)

/-! ### Behaviour of the `SparseData::dataAt` walk -/

/-- Inside the materialized data of a member entry of a well-formed SparseSet,
`dataAt` returns that entry's pointer at the offset together with the distance
to the entry's materialized end. -/
theorem dataAt_run {s : SparseData} {e : DenseData} {off : Nat} (h : Inv s)
    (he : e ∈ s) (h1 : e.range.startbyte ≤ off) (h2 : off < e.range.endbyte)
    (h3 : e.range.endbyte < W) :
    s.dataAt off =
      (some (e.mData.drop (off - e.range.startbyte)), e.range.endbyte - off) := by
  unfold Inv at h
  induction s with
  | nil => cases he
  | cons d rest ih =>
    rw [List.pairwise_cons] at h
    rcases List.mem_cons.mp he with rfl | he
    · rw [SparseData.dataAt, if_pos ⟨h1, Or.inr h2⟩]
      have hE : e.range.endbyte = e.range.startbyte + e.range.length := rfl
      refine Prod.ext ?_ ?_
      · rw [DenseData.dataAt, if_neg ?_]
        intro hcond
        rcases hcond with hc | hc <;> omega
      · show (e.range.length + usub e.range.startbyte off) % W = e.range.endbyte - off
        rw [hE] at h2 h3 ⊢
        exact runlen_eq h1 h2 h3
    · obtain ⟨hrel, hdw⟩ := h.1 e he
      have hds := d.range.startbyte_le_endbyte
      rw [SparseData.dataAt, if_neg ?_, if_neg (by omega)]
      · exact ih h.2 he
      · intro hcond
        obtain ⟨ha, hb⟩ := hcond
        rcases hb with hb | hb
        · rw [Range.goesToEndOfFile, hdw] at hb; cases hb
        · omega

/-- At an uncovered offset below the start of the earliest later entry,
`dataAt` reports the gap up to that entry. -/
theorem dataAt_gap {s : SparseData} {e : DenseData} {off : Nat} (h : Inv s)
    (he : e ∈ s) (hoff : off < e.range.startbyte)
    (huncov : ∀ f ∈ s, ¬(f.range.startbyte ≤ off ∧
      (f.range.goesToEndOfFile = true ∨ off < f.range.endbyte)))
    (hmin : ∀ f ∈ s, off < f.range.startbyte → e.range.startbyte ≤ f.range.startbyte)
    (hW : e.range.startbyte < W) :
    s.dataAt off = (none, e.range.startbyte - off) := by
  unfold Inv at h
  induction s with
  | nil => cases he
  | cons d rest ih =>
    rw [List.pairwise_cons] at h
    by_cases hd : off < d.range.startbyte
    · rw [SparseData.dataAt, if_neg (huncov d (List.mem_cons_self _ _)), if_pos hd]
      have heq : e.range.startbyte = d.range.startbyte := by
        rcases List.mem_cons.mp he with rfl | he
        · rfl
        · obtain ⟨hrel, _⟩ := h.1 e he
          have := d.range.startbyte_le_endbyte
          have := hmin d (List.mem_cons_self _ _) hd
          omega
      rw [usub_eq_sub (le_of_lt hd) (by omega), heq]
    · have he' : e ∈ rest := by
        rcases List.mem_cons.mp he with rfl | he'
        · exact absurd hoff hd
        · exact he'
      rw [SparseData.dataAt, if_neg (huncov d (List.mem_cons_self _ _)),
        if_neg hd]
      exact ih h.2 he'
        (fun f hf => huncov f (List.mem_cons_of_mem _ hf))
        (fun f hf => hmin f (List.mem_cons_of_mem _ hf))

/-- Past the materialized end of every entry of a SparseSet with no unbounded
entry, `dataAt` reports no data and a zero run. -/
theorem dataAt_past {s : SparseData} {off : Nat}
    (h : ∀ f ∈ s, f.range.mWholeFile = false ∧ f.range.endbyte ≤ off) :
    s.dataAt off = (none, 0) := by
  induction s with
  | nil => rfl
  | cons d rest ih =>
    obtain ⟨hdw, hde⟩ := h d (List.mem_cons_self _ _)
    have hds := d.range.startbyte_le_endbyte
    rw [SparseData.dataAt, if_neg ?_, if_neg (by omega)]
    · exact ih (fun f hf => h f (List.mem_cons_of_mem _ hf))
    · intro hcond
      obtain ⟨ha, hb⟩ := hcond
      rcases hb with hb | hb
      · rw [Range.goesToEndOfFile, hdw] at hb; cases hb
      · omega

/-! ### Space accounting -/

theorem getSpaceUsed_aux (s : SparseData) (acc : Nat)
    (h : acc + (s.map (fun e => e.range.length)).sum < W) :
    s.foldl (fun a d => (a + d.range.length) % W) acc =
      acc + (s.map (fun e => e.range.length)).sum := by
  induction s generalizing acc with
  | nil => simp
  | cons d rest ih =>
    rw [List.map_cons, List.sum_cons] at h ⊢
    rw [List.foldl_cons, Nat.mod_eq_of_lt (by omega), ih _ (by omega)]
    omega

/-- When the total does not overflow, `getSpaceUsed` is the sum of the
entries' lengths. -/
theorem getSpaceUsed_eq_sum {s : SparseData}
    (h : (s.map (fun e => e.range.length)).sum < W) :
    s.getSpaceUsed = (s.map (fun e => e.range.length)).sum := by
  unfold SparseData.getSpaceUsed
  rw [getSpaceUsed_aux s 0 (by omega)]
  omega

/-! ### Idempotence of insertion -/

theorem isBefore_false_of_isAfter {r c : Range} (h : r.isAfter c = true) :
    r.isBefore c = false := by
  cases hr : r.mWholeFile <;> cases hc : c.mWholeFile <;>
    simp [Range.isBefore, Range.isAfter, Range.startbyte, Range.endbyte, hr, hc] at * <;>
    omega

theorem isAfter_false_of_isBefore {r c : Range} (h : r.isBefore c = true) :
    r.isAfter c = false := by
  cases hr : r.mWholeFile <;> cases hc : c.mWholeFile <;>
    simp [Range.isBefore, Range.isAfter, Range.startbyte, Range.endbyte, hr, hc] at * <;>
    omega

theorem meets_false_of_isBefore {r c : Range} (h : r.isBefore c = true) :
    r.meets c = false := by
  cases hr : r.mWholeFile <;> cases hc : c.mWholeFile <;>
    simp [Range.isBefore, Range.meets, Range.startbyte, Range.endbyte, hr, hc] at * <;>
    omega

theorem meets_false_of_isAfter {r c : Range} (h : r.isAfter c = true) :
    r.meets c = false := by
  cases hr : r.mWholeFile <;> cases hc : c.mWholeFile <;>
    simp [Range.isAfter, Range.meets, Range.startbyte, Range.endbyte, hr, hc] at * <;>
    omega

theorem mergeEntry_isBefore_false (s : SparseData) (c : DenseData) :
    (mergeEntry s c).range.isBefore c.range = false := by
  have h1 := chunk_le_mergeEnd s c
  have h2 := c.range.startbyte_le_endbyte
  rw [Range.isBefore, mergeEntry_endbyte, decide_eq_false (by omega), Bool.false_and]

theorem mergeEntry_isAfter_false (s : SparseData) (c : DenseData) :
    (mergeEntry s c).range.isAfter c.range = false := by
  have h1 := mergeStart_le_chunk s c
  have h2 := c.range.startbyte_le_endbyte
  rw [Range.isAfter, mergeEntry_startbyte, decide_eq_false (by omega), Bool.false_and]

theorem mergeEntry_meets (s : SparseData) (c : DenseData) :
    (mergeEntry s c).range.meets c.range = true := by
  have h1 := mergeStart_le_chunk s c
  have h2 := chunk_le_mergeEnd s c
  have h3 := c.range.startbyte_le_endbyte
  refine meets_iff.mpr ⟨Or.inl ?_, Or.inl ?_⟩
  · rw [mergeEntry_startbyte]; omega
  · rw [mergeEntry_endbyte]; omega

theorem filter_isBefore_addValidData (s : SparseData) (c : DenseData) :
    (s.addValidData c).filter (fun e => e.range.isBefore c.range) =
      s.filter (fun e => e.range.isBefore c.range) := by
  have hb : List.filter (fun e => e.range.isBefore c.range)
      (List.filter (fun e => e.range.isBefore c.range) s) =
      List.filter (fun e => e.range.isBefore c.range) s :=
    List.filter_eq_self.mpr (fun a ha => (List.mem_filter.mp ha).2)
  have ha : List.filter (fun e => e.range.isBefore c.range)
      (List.filter (fun e => e.range.isAfter c.range) s) = [] :=
    List.filter_eq_nil_iff.mpr (fun a ha => by
      rw [isBefore_false_of_isAfter (List.mem_filter.mp ha).2]
      exact Bool.false_ne_true)
  unfold SparseData.addValidData
  rw [List.filter_append, List.filter_cons, mergeEntry_isBefore_false s c]
  simp only [Bool.false_eq_true, if_false]
  rw [hb, ha, List.append_nil]

theorem filter_isAfter_addValidData (s : SparseData) (c : DenseData) :
    (s.addValidData c).filter (fun e => e.range.isAfter c.range) =
      s.filter (fun e => e.range.isAfter c.range) := by
  have hb : List.filter (fun e => e.range.isAfter c.range)
      (List.filter (fun e => e.range.isBefore c.range) s) = [] :=
    List.filter_eq_nil_iff.mpr (fun a ha => by
      rw [isAfter_false_of_isBefore (List.mem_filter.mp ha).2]
      exact Bool.false_ne_true)
  have ha : List.filter (fun e => e.range.isAfter c.range)
      (List.filter (fun e => e.range.isAfter c.range) s) =
      List.filter (fun e => e.range.isAfter c.range) s :=
    List.filter_eq_self.mpr (fun a ha => (List.mem_filter.mp ha).2)
  unfold SparseData.addValidData
  rw [List.filter_append, List.filter_cons, mergeEntry_isAfter_false s c]
  simp only [Bool.false_eq_true, if_false]
  rw [hb, ha, List.nil_append]

theorem mergeCandidates_addValidData (s : SparseData) (c : DenseData) :
    mergeCandidates (s.addValidData c) c = [mergeEntry s c] := by
  have hb : List.filter (fun e => e.range.meets c.range)
      (List.filter (fun e => e.range.isBefore c.range) s) = [] :=
    List.filter_eq_nil_iff.mpr (fun a ha => by
      rw [meets_false_of_isBefore (List.mem_filter.mp ha).2]
      exact Bool.false_ne_true)
  have ha : List.filter (fun e => e.range.meets c.range)
      (List.filter (fun e => e.range.isAfter c.range) s) = [] :=
    List.filter_eq_nil_iff.mpr (fun a ha => by
      rw [meets_false_of_isAfter (List.mem_filter.mp ha).2]
      exact Bool.false_ne_true)
  unfold mergeCandidates SparseData.addValidData
  rw [List.filter_append, List.filter_cons, mergeEntry_meets s c]
  simp only [if_true]
  rw [hb, ha, List.nil_append]

theorem mergeStart_addValidData (s : SparseData) (c : DenseData) :
    mergeStart (s.addValidData c) c = mergeStart s c := by
  unfold mergeStart
  rw [mergeCandidates_addValidData]
  show min (mergeEntry s c).range.startbyte c.range.startbyte = _
  rw [mergeEntry_startbyte]
  exact min_eq_left (mergeStart_le_chunk s c)

theorem mergeEnd_addValidData (s : SparseData) (c : DenseData) :
    mergeEnd (s.addValidData c) c = mergeEnd s c := by
  unfold mergeEnd
  rw [mergeCandidates_addValidData]
  show max (mergeEntry s c).range.endbyte c.range.endbyte = _
  rw [mergeEntry_endbyte]
  exact max_eq_left (chunk_le_mergeEnd s c)

theorem mergeWhole_addValidData (s : SparseData) (c : DenseData) :
    mergeWhole (s.addValidData c) c = mergeWhole s c := by
  unfold mergeWhole
  rw [mergeCandidates_addValidData, List.any_cons, List.any_nil, Bool.or_false]
  show (c.range.mWholeFile ||
      (c.range.mWholeFile || (mergeCandidates s c).any (fun e => e.range.mWholeFile))) =
      (c.range.mWholeFile || (mergeCandidates s c).any (fun e => e.range.mWholeFile))
  rw [← Bool.or_assoc, Bool.or_self]

theorem mergeEntry_addValidData (s : SparseData) (c : DenseData) :
    mergeEntry (s.addValidData c) c = mergeEntry s c := by
  have hse := mergeStart_le_mergeEnd s c
  unfold mergeEntry
  rw [mergeStart_addValidData, mergeEnd_addValidData, mergeWhole_addValidData,
    mergeCandidates_addValidData]
  refine congrArg _ ?_
  refine List.map_congr_left ?_
  intro i hi
  rw [List.mem_range] at hi
  set p := mergeStart s c + i with hp
  have hp1 : mergeStart s c ≤ p := Nat.le_add_right _ _
  have hp2 : p < mergeEnd s c := by omega
  unfold mergedByte
  by_cases hc : c.range.covers p
  · rw [if_pos hc, if_pos hc]
  · rw [if_neg hc, if_neg hc,
      List.find?_cons_of_pos _ (by simpa using mergeEntry_covers hp1 hp2)]
    have hM := mergeEntry_byteAt hp1 hp2
    unfold mergedByte at hM
    rw [if_neg hc] at hM
    exact hM

/-- Inserting the same chunk a second time is a no-op: the resulting entry
list (intervals and byte content alike) is unchanged. -/
theorem addValidData_idem (s : SparseData) (c : DenseData) :
    (s.addValidData c).addValidData c = s.addValidData c := by
  conv_lhs => rw [SparseData.addValidData]
  rw [filter_isBefore_addValidData, filter_isAfter_addValidData,
    mergeEntry_addValidData]
  rfl

/-! ### Concrete fixtures used by the claims -/

/-- A chunk `[0,10)` filled with byte value 65 (`A`). -/
def chunkA : DenseData := ⟨⟨0, 10, false⟩, List.replicate 10 65⟩

/-- A chunk `[5,15)` filled with byte value 66 (`B`). -/
def chunkB : DenseData := ⟨⟨5, 10, false⟩, List.replicate 10 66⟩

/-- A bounded entry `[100,150)` filled with byte value 9. -/
def entry100 : DenseData := ⟨⟨100, 50, false⟩, List.replicate 50 9⟩

/-- An unbounded (goes-to-end-of-file) entry starting at 100 with 50 bytes of
materialized data, filled with byte value 7. -/
def entryUnbounded : DenseData := ⟨⟨100, 50, true⟩, List.replicate 50 7⟩

/-- A chunk `[0,10)` filled with byte value 1. -/
def chunk0 : DenseData := ⟨⟨0, 10, false⟩, List.replicate 10 1⟩

/-- A chunk `[20,30)` filled with byte value 2. -/
def chunk20 : DenseData := ⟨⟨20, 10, false⟩, List.replicate 10 2⟩

/-- A chunk `[10,20)` filled with byte value 3. -/
def chunk10 : DenseData := ⟨⟨10, 10, false⟩, List.replicate 10 3⟩

/-- A chunk `[3,7)` with bytes 10,11,12,13. -/
def chunkD : DenseData := ⟨⟨3, 4, false⟩, [10, 11, 12, 13]⟩

/-! ### The claims -/

/-- C1: after every sequence of `addValidData` calls applied to an initially
empty SparseSet, the entries are strictly ordered ascending by start,
mutually non-overlapping, and no two are merely touching: every pair of
entries (in list order) satisfies `endbyte < startbyte` of the later one
(which forces strict ascending starts, disjointness and a nonempty gap), and
additionally every entry but possibly the last is bounded. -/
theorem claim_C1 (cs : List DenseData) :
    Inv (cs.foldl SparseData.addValidData ([] : SparseData)) ∧
      (cs.foldl SparseData.addValidData ([] : SparseData)).Pairwise
        (fun a b => a.range.endbyte < b.range.startbyte) := by
  have aux : ∀ (l : List DenseData) (s : SparseData), Inv s →
      Inv (l.foldl SparseData.addValidData s) := by
    intro l
    induction l with
    | nil => exact fun s hs => hs
    | cons c rest ih => exact fun s hs => ih _ (hs.addValidData c)
  have h := aux cs [] List.Pairwise.nil
  exact ⟨h, h.imp (fun hab => hab.1)⟩

/-- C2: overlap precedence.  Generally, on a well-formed SparseSet the
inserted chunk's bytes win at every offset the chunk covers, and at offsets it
does not cover every previously stored byte is retained.  Concretely,
inserting `[0,10)` of byte 65 then `[5,15)` of byte 66 into an empty set
leaves a single coalesced entry `[0,15)`, with `dataAt 5` returning the new
bytes and `dataAt 0` still returning 65 first. -/
theorem claim_C2 :
    (∀ (s : SparseData) (c : DenseData) (p : Nat), Inv s →
      (c.range.covers p → (s.addValidData c).valueAt p = some (c.byteAt p)) ∧
      (¬ c.range.covers p → ∀ b, s.valueAt p = some b →
        (s.addValidData c).valueAt p = some b)) ∧
    SparseData.dataAt (SparseData.addValidData (SparseData.addValidData [] chunkA) chunkB) 5 =
      (some (List.replicate 10 66), 10) ∧
    SparseData.dataAt (SparseData.addValidData (SparseData.addValidData [] chunkA) chunkB) 0 =
      (some (List.replicate 5 65 ++ List.replicate 10 66), 15) ∧
    (SparseData.addValidData (SparseData.addValidData [] chunkA) chunkB).map
      (fun e => e.range) = [⟨0, 15, false⟩] := by
  refine ⟨?_, by decide, by decide, by decide⟩
  intro s c p h
  exact ⟨fun hc => valueAt_addValidData_covers h hc,
    fun hnc b hb => valueAt_addValidData_notCovers h hnc hb⟩

theorem claim_C2_witness :
    Inv (SparseData.addValidData [] chunkA) ∧
    chunkB.range.covers 5 ∧
    (SparseData.addValidData (SparseData.addValidData [] chunkA) chunkB).valueAt 5 =
      some (chunkB.byteAt 5) ∧
    ¬ chunkB.range.covers 0 ∧
    (SparseData.addValidData [] chunkA).valueAt 0 = some 65 ∧
    (SparseData.addValidData (SparseData.addValidData [] chunkA) chunkB).valueAt 0 =
      some 65 :=
  ⟨by decide, by decide,
    (claim_C2.1 (SparseData.addValidData [] chunkA) chunkB 5 (by decide)).1 (by decide),
    by decide, by decide,
    (claim_C2.1 (SparseData.addValidData [] chunkA) chunkB 0 (by decide)).2
      (by decide) 65 (by decide)⟩

/-- C3: on a well-formed SparseSet, at an offset inside a bounded member
entry's interval, `dataAt` returns the entry's data positioned at the offset,
with run length `endbyte - offset` (the contiguous valid bytes up to the end
of that entry). -/
theorem claim_C3 {s : SparseData} {e : DenseData} {off : Nat} (h : Inv s)
    (he : e ∈ s) (_hw : e.range.mWholeFile = false)
    (h1 : e.range.startbyte ≤ off) (h2 : off < e.range.endbyte)
    (h3 : e.range.endbyte < W) :
    s.dataAt off =
      (some (e.mData.drop (off - e.range.startbyte)), e.range.endbyte - off) :=
  dataAt_run h he h1 h2 h3

theorem claim_C3_witness :
    Inv [entry100] ∧
    SparseData.dataAt [entry100] 120 = (some (List.replicate 30 9), 30) := by
  refine ⟨by decide, ?_⟩
  have h := @claim_C3 [entry100] entry100 120
    (by decide) (by decide) (by decide) (by decide) (by decide) (by decide)
  exact h.trans (by decide)

/-- C4: on a well-formed SparseSet, at an uncovered offset lying before the
start of the earliest entry beyond it, `dataAt` returns no data and reports
the distance from the offset to that entry's start (the gap size). -/
theorem claim_C4 {s : SparseData} {e : DenseData} {off : Nat} (h : Inv s)
    (he : e ∈ s) (hoff : off < e.range.startbyte)
    (huncov : ∀ f ∈ s, ¬(f.range.startbyte ≤ off ∧
      (f.range.goesToEndOfFile = true ∨ off < f.range.endbyte)))
    (hmin : ∀ f ∈ s, off < f.range.startbyte → e.range.startbyte ≤ f.range.startbyte)
    (hW : e.range.startbyte < W) :
    s.dataAt off = (none, e.range.startbyte - off) :=
  dataAt_gap h he hoff huncov hmin hW

theorem claim_C4_witness :
    Inv [entry100] ∧ SparseData.dataAt [entry100] 90 = (none, 10) := by
  refine ⟨by decide, ?_⟩
  have h := @claim_C4 [entry100] entry100 90
    (by decide) (by decide) (by decide) (by decide) (by decide) (by decide)
  exact h.trans (by decide)

/-- C5: with no unbounded entry and the offset at or past the materialized end
of every entry, `dataAt` returns no data with run length 0; in particular on
the empty SparseSet this holds for every offset. -/
theorem claim_C5 :
    (∀ (s : SparseData) (off : Nat),
      (∀ f ∈ s, f.range.mWholeFile = false ∧ f.range.endbyte ≤ off) →
      s.dataAt off = (none, 0)) ∧
    (∀ off : Nat, SparseData.dataAt ([] : SparseData) off = (none, 0)) :=
  ⟨fun _ _ h => dataAt_past h, fun _ => rfl⟩

theorem claim_C5_witness :
    (∀ f ∈ [entry100], f.range.mWholeFile = false ∧ f.range.endbyte ≤ 150) ∧
    SparseData.dataAt [entry100] 150 = (none, 0) :=
  ⟨by decide, claim_C5.1 [entry100] 150 (by decide)⟩

/-- C6 counterexample: after inserting disjoint `[0,10)` and `[20,30)` (space
used 20) and then the bridging chunk `[10,20)`, the set holds the single
coalesced entry `[0,30)` and `getSpaceUsed` returns 30 — the 10 newly covered
bytes are counted — not the claimed unchanged 20. -/
theorem claim_C6_counterexample :
    SparseData.getSpaceUsed
      (SparseData.addValidData (SparseData.addValidData [] chunk0) chunk20) = 20 ∧
    SparseData.getSpaceUsed
      (SparseData.addValidData
        (SparseData.addValidData (SparseData.addValidData [] chunk0) chunk20)
        chunk10) = 30 ∧
    (SparseData.addValidData
      (SparseData.addValidData (SparseData.addValidData [] chunk0) chunk20)
      chunk10).map (fun e => e.range) = [⟨0, 30, false⟩] ∧
    (30 : Nat) ≠ 20 :=
  ⟨by decide, by decide, by decide, by decide⟩

/-- C6 (amended): `getSpaceUsed` is the sum of `length()` over all entries
(whenever the 64-bit accumulator does not wrap); concretely, after inserting
disjoint `[0,10)` and `[20,30)` it is 20, and after a bridging insertion of
`[10,20)` it is 30 — each byte of the single coalesced entry `[0,30)` counted
exactly once, with no double counting across the merge. -/
theorem claim_C6 :
    (∀ s : SparseData, (s.map (fun e => e.range.length)).sum < W →
      s.getSpaceUsed = (s.map (fun e => e.range.length)).sum) ∧
    SparseData.getSpaceUsed
      (SparseData.addValidData (SparseData.addValidData [] chunk0) chunk20) = 20 ∧
    SparseData.getSpaceUsed
      (SparseData.addValidData
        (SparseData.addValidData (SparseData.addValidData [] chunk0) chunk20)
        chunk10) = 30 ∧
    (SparseData.addValidData
      (SparseData.addValidData (SparseData.addValidData [] chunk0) chunk20)
      chunk10).map (fun e => e.range) = [⟨0, 30, false⟩] := by
  refine ⟨fun _ h => getSpaceUsed_eq_sum h, by decide, by decide, by decide⟩

theorem claim_C6_witness :
    (([chunk0] : SparseData).map (fun e => e.range.length)).sum < W ∧
    SparseData.getSpaceUsed [chunk0] =
      (([chunk0] : SparseData).map (fun e => e.range.length)).sum :=
  ⟨by decide, claim_C6.1 [chunk0] (by decide)⟩

/-- C7: inserting the same chunk a second time leaves the SparseSet unchanged:
the entry list is literally equal, hence coverage, byte content, space used
and every `dataAt` result are unchanged. -/
theorem claim_C7 (s : SparseData) (c : DenseData) :
    (s.addValidData c).addValidData c = s.addValidData c ∧
    ((s.addValidData c).addValidData c).getSpaceUsed = (s.addValidData c).getSpaceUsed ∧
    ∀ off, ((s.addValidData c).addValidData c).dataAt off =
      (s.addValidData c).dataAt off := by
  have h := addValidData_idem s c
  exact ⟨h, by rw [h], fun off => by rw [h]⟩

/-- C8 counterexample: on the SparseSet holding only the unbounded entry
starting at 100 with 50 materialized bytes, the offset 200 is at-or-past the
entry's start, yet `dataAt` returns no view and a wrapped run length
`2^64 - 50` — not the number of materialized bytes remaining from the offset
(which is 0).  The claim fails for offsets at or past the materialized end of
an unbounded entry. -/
theorem claim_C8_counterexample :
    entryUnbounded.range.mWholeFile = true ∧
    entryUnbounded.range.startbyte ≤ 200 ∧
    SparseData.dataAt [entryUnbounded] 200 = (none, W - 50) ∧
    W - 50 ≠ entryUnbounded.mData.length - (200 - entryUnbounded.range.startbyte) :=
  ⟨by decide, by decide, by decide, by decide⟩

/-- C8 (amended): for offsets strictly inside the materialized buffer of an
unbounded member entry (start ≤ offset < start + buffer length), `dataAt`
returns the data at that offset and a run length equal to the materialized
bytes remaining from the offset — not an infinite or larger run.  At or past
the materialized end the code instead returns no data with a run length
wrapped modulo 2^64 (see the counterexample). -/
theorem claim_C8 {s : SparseData} {e : DenseData} {off : Nat} (h : Inv s)
    (he : e ∈ s) (_hw : e.range.mWholeFile = true)
    (hbuf : e.mData.length = e.range.length)
    (h1 : e.range.startbyte ≤ off) (h2 : off < e.range.endbyte)
    (h3 : e.range.endbyte < W) :
    s.dataAt off = (some (e.mData.drop (off - e.range.startbyte)),
      e.mData.length - (off - e.range.startbyte)) := by
  rw [dataAt_run h he h1 h2 h3]
  refine Prod.ext rfl ?_
  show e.range.endbyte - off = e.mData.length - (off - e.range.startbyte)
  have hE : e.range.endbyte = e.range.startbyte + e.range.length := rfl
  rw [hbuf, hE]
  omega

theorem claim_C8_witness :
    Inv [entryUnbounded] ∧
    SparseData.dataAt [entryUnbounded] 120 = (some (List.replicate 30 7), 30) := by
  refine ⟨by decide, ?_⟩
  have h := @claim_C8 [entryUnbounded] entryUnbounded 120
    (by decide) (by decide) (by decide) (by decide) (by decide) (by decide) (by decide)
  exact h.trans (by decide)

/-- C9: `DenseData::dataAt` returns a non-null pointer into the buffer at
position `offset - startbyte` exactly when `startbyte <= offset < endbyte`;
otherwise it returns null rather than reading out of bounds. -/
theorem claim_C9 (d : DenseData) (off : Nat) :
    (d.dataAt off ≠ none ↔ d.range.startbyte ≤ off ∧ off < d.range.endbyte) ∧
    (∀ v, d.dataAt off = some v → v = d.mData.drop (off - d.range.startbyte)) := by
  unfold DenseData.dataAt
  by_cases hc : off ≥ d.range.endbyte ∨ off < d.range.startbyte
  · rw [if_pos hc]
    refine ⟨⟨fun hne => absurd rfl hne, fun hin => ?_⟩, fun v hv => by cases hv⟩
    obtain ⟨ha, hb⟩ := hin
    exfalso
    rcases hc with hc | hc <;> omega
  · rw [if_neg hc]
    push_neg at hc
    refine ⟨⟨fun _ => ⟨hc.2, hc.1⟩, fun _ => by simp⟩, fun v hv => ?_⟩
    exact ((Option.some.injEq _ _).mp hv).symm

theorem claim_C9_witness :
    DenseData.dataAt chunkD 5 ≠ none ∧
    ([12, 13] : List Nat) = chunkD.mData.drop (5 - chunkD.range.startbyte) :=
  ⟨(claim_C9 chunkD 5).1.mpr (by decide), (claim_C9 chunkD 5).2 [12, 13] (by decide)⟩

/-- C10: for a zero-length `Range` the `DenseData` constructor skips the
resize and leaves the buffer empty, so `data()` and `writableData()` hit the
out-of-bounds error branch of indexing element 0 of an empty vector (embedded
as `none`), while `dataAt` returns null for every offset. -/
theorem claim_C10 (r : Range) (h : r.mLength = 0) :
    (mkDenseData r).mData = [] ∧
    (mkDenseData r).data = none ∧
    (mkDenseData r).writableData = none ∧
    ∀ off, (mkDenseData r).dataAt off = none := by
  have hm : (mkDenseData r).mData = [] := by
    unfold mkDenseData
    simp [Range.length, h]
  refine ⟨hm, ?_, ?_, ?_⟩
  · unfold DenseData.data
    rw [hm]
    rfl
  · unfold DenseData.writableData
    rw [hm]
    rfl
  · intro off
    unfold DenseData.dataAt
    rw [if_pos]
    show off ≥ (mkDenseData r).range.endbyte ∨ off < (mkDenseData r).range.startbyte
    have hr : (mkDenseData r).range = r := rfl
    rw [hr, Range.endbyte, Range.startbyte, h]
    omega

theorem claim_C10_witness :
    (⟨7, 0, false⟩ : Range).mLength = 0 ∧
    (mkDenseData ⟨7, 0, false⟩).mData = [] ∧
    (mkDenseData ⟨7, 0, false⟩).data = none ∧
    (mkDenseData ⟨7, 0, false⟩).dataAt 7 = none := by
  have h := claim_C10 ⟨7, 0, false⟩ rfl
  exact ⟨rfl, h.1, h.2.1, h.2.2.2 7⟩

end Transfer
end Sirikata
